import Mathlib

set_option maxRecDepth 8000

/-!
Verification of the core of the `affine` validator (`src/affine/__init__.py`).

The development shallowly embeds the pieces of the program that the checked
properties depend on:

* SHA-256 (the program calls `hashlib.sha256`; we implement FIPS 180-4 over
  byte lists with `Nat` arithmetic mod 2^32),
* canonical JSON serialisation (`json.dumps(..., sort_keys=True,
  separators=(",", ":"))`, `ensure_ascii` on),
* the `Challenge` / `Result` record model with `Challenge.set_challenge_id`,
  `_truncate`, `Result.sign` and `Result.verify` (the external ed25519/sr25519
  keypair of the `bittensor` library is idealised as a deterministic scheme:
  the signature bytes a keypair produces over a message are a fixed injective
  function of (address, message); `bytes.fromhex` is modelled exactly),
* the per-line accept/skip logic of `dataset`,
* the retry loop of `query` with its terminal-status short-circuit,
* the `get_weights` aggregation: skip rules, the identity-change reset, the
  accuracy and dense-rank computation, pairwise dominance and the final
  `max` selection.
-/

/-! ## SHA-256 over byte lists (models `hashlib.sha256(...).hexdigest()`) -/

def M32 : Nat := 4294967296

/-- Right rotation of a 32-bit word, arithmetic form. -/
def rotr32 (n x : Nat) : Nat := (x / 2 ^ n + x % 2 ^ n * 2 ^ (32 - n)) % M32

/-- Bitwise complement on 32 bits (inputs are kept `< 2^32` throughout). -/
def not32 (x : Nat) : Nat := M32 - 1 - x % M32

def shaCh (x y z : Nat) : Nat := (x &&& y) ^^^ (not32 x &&& z)

def shaMaj (x y z : Nat) : Nat := (x &&& y) ^^^ (x &&& z) ^^^ (y &&& z)

def shaS0 (x : Nat) : Nat := rotr32 2 x ^^^ rotr32 13 x ^^^ rotr32 22 x

def shaS1 (x : Nat) : Nat := rotr32 6 x ^^^ rotr32 11 x ^^^ rotr32 25 x

def shaG0 (x : Nat) : Nat := rotr32 7 x ^^^ rotr32 18 x ^^^ x / 8

def shaG1 (x : Nat) : Nat := rotr32 17 x ^^^ rotr32 19 x ^^^ x / 1024

/-- The 64 SHA-256 round constants (FIPS 180-4 §4.2.2). -/
def shaK : List Nat :=
  [1116352408, 1899447441, 3049323471, 3921009573, 961987163,
   1508970993, 2453635748, 2870763221, 3624381080, 310598401,
   607225278, 1426881987, 1925078388, 2162078206, 2614888103,
   3248222580, 3835390401, 4022224774, 264347078, 604807628,
   770255983, 1249150122, 1555081692, 1996064986, 2554220882,
   2821834349, 2952996808, 3210313671, 3336571891, 3584528711,
   113926993, 338241895, 666307205, 773529912, 1294757372,
   1396182291, 1695183700, 1986661051, 2177026350, 2456956037,
   2730485921, 2820302411, 3259730800, 3345764771, 3516065817,
   3600352804, 4094571909, 275423344, 430227734, 506948616,
   659060556, 883997877, 958139571, 1322822218, 1537002063,
   1747873779, 1955562222, 2024104815, 2227730452, 2361852424,
   2428436474, 2756734187, 3204031479, 3329325298]

/-- The eight SHA-256 initial hash values (FIPS 180-4 §5.3.3). -/
def shaH0 : List Nat :=
  [1779033703, 3144134277, 1013904242, 2773480762, 1359893119,
   2600822924, 528734635, 1541459225]

/-- Extend the message schedule; `w` is kept reversed (most recent word first),
`n` words remain to be produced. -/
def extendW : Nat → List Nat → List Nat
  | 0, w => w
  | n + 1, w =>
    let x := (shaG1 (w.getD 1 0) + w.getD 6 0 + shaG0 (w.getD 14 0) + w.getD 15 0) % M32
    extendW n (x :: w)

/-- One round of the compression function; state is `[a,b,c,d,e,f,g,h]`. -/
def shaRound (s : List Nat) (kw : Nat × Nat) : List Nat :=
  match s with
  | [a, b, c, d, e, f, g, h] =>
    let t1 := (h + shaS1 e + shaCh e f g + kw.1 + kw.2) % M32
    let t2 := (shaS0 a + shaMaj a b c) % M32
    [(t1 + t2) % M32, a, b, c, (d + t1) % M32, e, f, g]
  | _ => s

/-- Compress one 16-word block into the running 8-word state. -/
def shaCompress (st : List Nat) (block : List Nat) : List Nat :=
  let w := (extendW 48 block.reverse).reverse
  let s := (shaK.zip w).foldl shaRound st
  (st.zip s).map (fun p => (p.1 + p.2) % M32)

/-- Big-endian byte serialisation of `x` on `k` bytes. -/
def beBytes : Nat → Nat → List Nat
  | 0, _ => []
  | k + 1, x => beBytes k (x / 256) ++ [x % 256]

/-- SHA-256 padding: append `0x80`, zero bytes, then the 64-bit big-endian bit
length, reaching a multiple of 64 bytes. -/
def shaPad (msg : List Nat) : List Nat :=
  let zeros := (119 - msg.length % 64) % 64
  msg ++ 128 :: List.replicate zeros 0 ++ beBytes 8 (msg.length * 8)

/-- Big-endian 4-byte groups to 32-bit words. -/
def toWords : List Nat → List Nat
  | b0 :: b1 :: b2 :: b3 :: rest => (((b0 * 256 + b1) * 256 + b2) * 256 + b3) :: toWords rest
  | _ => []

/-- Group a word list into 16-word blocks (structural, via an accumulator). -/
def chunk16 : List Nat → List Nat → List (List Nat)
  | [], acc => if acc = [] then [] else [acc.reverse]
  | x :: xs, acc =>
    if acc.length = 15 then (acc.reverse ++ [x]) :: chunk16 xs []
    else chunk16 xs (x :: acc)

/-- The eight 32-bit words of the SHA-256 digest of a byte list. -/
def sha256Words (msg : List Nat) : List Nat :=
  (chunk16 (toWords (shaPad msg)) []).foldl shaCompress shaH0

def hexDigit (n : Nat) : Char :=
  if n < 10 then Char.ofNat (48 + n) else Char.ofNat (87 + n)

/-- Lowercase hexadecimal rendering of a 32-bit word on 8 digits. -/
def hex8 (x : Nat) : String :=
  String.mk ((List.range 8).map fun i => hexDigit (x / 16 ^ (7 - i) % 16))

/-- UTF-8 encoding of a single code point (models Python `str.encode()`). -/
def utf8Enc (c : Nat) : List Nat :=
  if c < 128 then [c]
  else if c < 2048 then [192 + c / 64, 128 + c % 64]
  else if c < 65536 then [224 + c / 4096, 128 + c / 64 % 64, 128 + c % 64]
  else [240 + c / 262144, 128 + c / 4096 % 64, 128 + c / 64 % 64, 128 + c % 64]

def strBytes (s : String) : List Nat := (s.data.map (fun c => utf8Enc c.toNat)).flatten

/-- `hashlib.sha256(s.encode()).hexdigest()`. -/
def sha256hex (s : String) : String :=
  String.join ((sha256Words (strBytes s)).map hex8)

/-! ## JSON values and canonical serialisation

Models the payloads storable in `Challenge.extra : Dict[str, Any]` and the
serialisation `json.dumps(..., sort_keys=True, separators=(",", ":"))` used by
`Challenge.set_challenge_id` (number values are restricted to integers; float
repr formatting is orthogonal to every property checked here). -/

inductive Json where
  | null : Json
  | bool (b : Bool) : Json
  | int (n : Int) : Json
  | str (s : String) : Json
  | arr (xs : List Json) : Json
  | obj (kvs : List (String × Json)) : Json

/-- Lexicographic code-point comparison of character lists: Python's string
`<=`, which is what `sort_keys=True` sorts by. -/
def charsLe : List Char → List Char → Bool
  | [], _ => true
  | _ :: _, [] => false
  | c :: cs, d :: ds =>
    if c.toNat < d.toNat then true
    else if d.toNat < c.toNat then false
    else charsLe cs ds

def pyStrLe (s t : String) : Bool := charsLe s.data t.data

/-- Key order used by `sort_keys=True`. -/
def keyLe (p q : String × Json) : Prop := pyStrLe p.1 q.1 = true

instance : DecidableRel keyLe := fun p q =>
  inferInstanceAs (Decidable (pyStrLe p.1 q.1 = true))

def sortKvs (kvs : List (String × Json)) : List (String × Json) :=
  List.insertionSort keyLe kvs

def hex4 (n : Nat) : String :=
  String.mk ((List.range 4).map fun i => hexDigit (n / 16 ^ (3 - i) % 16))

/-- Per-character JSON string escaping with `ensure_ascii` (the default of
`json.dumps`): characters outside `0x20..0x7e` are `\uXXXX`-escaped, astral
code points as surrogate pairs. -/
def escChar (c : Char) : String :=
  let n := c.toNat
  if c = '"' then "\\\""
  else if c = '\\' then "\\\\"
  else if n = 8 then "\\b"
  else if n = 9 then "\\t"
  else if n = 10 then "\\n"
  else if n = 12 then "\\f"
  else if n = 13 then "\\r"
  else if n < 32 then "\\u" ++ hex4 n
  else if n < 127 then String.singleton c
  else if n < 65536 then "\\u" ++ hex4 n
  else "\\u" ++ hex4 (55296 + (n - 65536) / 1024) ++ "\\u" ++ hex4 (56320 + (n - 65536) % 1024)

def jsonQuote (s : String) : String :=
  "\"" ++ String.join (s.data.map escChar) ++ "\""

mutual

/-- Structural size of a JSON value (used as recursion fuel below). -/
def jsize : Json → Nat
  | .null => 1
  | .bool _ => 1
  | .int _ => 1
  | .str _ => 1
  | .arr xs => 1 + jsizeL xs
  | .obj kvs => 1 + jsizeP kvs

def jsizeL : List Json → Nat
  | [] => 0
  | x :: xs => jsize x + jsizeL xs

def jsizeP : List (String × Json) → Nat
  | [] => 0
  | kv :: kvs => jsize kv.2 + jsizeP kvs

end

/-- Fuelled serialisation body; the fuel only bounds the recursion depth and
`serJson` supplies `jsize j`, which exceeds the depth of `j`. -/
def serJsonF : Nat → Json → String
  | 0, _ => ""
  | _ + 1, .null => "null"
  | _ + 1, .bool true => "true"
  | _ + 1, .bool false => "false"
  | _ + 1, .int n => toString n
  | _ + 1, .str s => jsonQuote s
  | fuel + 1, .arr xs =>
    "[" ++ ",".intercalate (xs.map fun x => serJsonF fuel x) ++ "]"
  | fuel + 1, .obj kvs =>
    "\x7b" ++ ",".intercalate ((sortKvs kvs).map
      fun kv => jsonQuote kv.1 ++ ":" ++ serJsonF fuel kv.2) ++ "\x7d"

/-- `json.dumps(v, sort_keys=True, separators=(",", ":"))`. -/
def serJson (j : Json) : String := serJsonF (jsize j) j

/-! ## Challenge (`Challenge`, `set_challenge_id`, `_truncate`, `__repr__`) -/

/-- The canonical string hashed by `set_challenge_id`:
`json.dumps({"env": env, "prompt": prompt, "extra": extra}, sort_keys=True,
separators=(",", ":"))`, with `env` already reduced to the environment's name
tag (the validator replaces a `BaseEnv` value by `env.name`). -/
def canonicalChallenge (env prompt : String) (extra : List (String × Json)) : String :=
  serJson (Json.obj [("env", Json.str env), ("prompt", Json.str prompt),
                     ("extra", Json.obj extra)])

/-- `Challenge.set_challenge_id`: keep a present id, otherwise hash the
canonical JSON of the construction inputs. -/
def setChallengeId (env prompt : String) (extra : List (String × Json))
    (cid : Option String) : String :=
  match cid with
  | some c => c
  | none => sha256hex (canonicalChallenge env prompt extra)

/-- `Challenge`; the `env : BaseEnv` field is represented by the environment's
stable name tag, which is all the modelled code reads from it (`env.name`). -/
structure Challenge where
  env : String
  prompt : String
  extra : List (String × Json)
  challenge_id : String

/-- Construction through the pydantic validators: `challenge_id` is filled in
by `set_challenge_id` when absent. -/
def mkChallenge (env prompt : String) (extra : List (String × Json))
    (cid : Option String) : Challenge :=
  ⟨env, prompt, extra, setChallengeId env prompt extra cid⟩

/-- Python whitespace for `str.split()` (the ASCII part; exotic Unicode
whitespace does not occur in the modelled data). -/
def pyIsSpace (c : Char) : Bool :=
  c.toNat = 32 || (9 ≤ c.toNat && c.toNat ≤ 13) || (28 ≤ c.toNat && c.toNat ≤ 31)

def wordsAux : List Char → List Char → List String
  | [], acc => if acc = [] then [] else [String.mk acc.reverse]
  | c :: cs, acc =>
    if pyIsSpace c then
      if acc = [] then wordsAux cs [] else String.mk acc.reverse :: wordsAux cs []
    else wordsAux cs (c :: acc)

/-- `text.split()`: split on whitespace runs, discarding empty pieces. -/
def pyWords (t : String) : List String := wordsAux t.data []

/-- Longest word prefix whose space-joined length plus the placeholder fits the
width (the truncating branch of `textwrap.shorten`). -/
def fitWords (width : Nat) (cur : Nat) (acc : List String) : List String → List String
  | [] => acc.reverse
  | w :: ws =>
    let n := if acc.isEmpty then w.length else cur + 1 + w.length
    if n + 1 ≤ width then fitWords width n (w :: acc) ws else acc.reverse

/-- `textwrap.shorten(t, width, placeholder="…")`: collapse whitespace; return
the collapsed text if it fits, otherwise the longest word prefix followed by
the one-character placeholder. -/
def pyShorten (t : String) (width : Nat) : String :=
  let ws := pyWords t
  let joined := " ".intercalate ws
  if joined.length ≤ width then joined
  else " ".intercalate (fitWords width 0 [] ws) ++ "…"

/-- `_truncate`: empty on falsy input, else `textwrap.shorten(t, 80, "…")`. -/
def pyTruncate (t : Option String) : String :=
  match t with
  | none => ""
  | some s => if s = "" then "" else pyShorten s 80

/-- Python `repr` of a string as interpolated by `!r` (single-quote form; the
alternate quoting Python picks for strings containing a quote is immaterial to
the properties proved, which only use `repr`'s determinism). -/
def reprEsc (c : Char) : String :=
  if c = '\\' then "\\\\"
  else if c.toNat = 39 then "\\x27"
  else if c.toNat = 10 then "\\n"
  else if c.toNat = 13 then "\\r"
  else if c.toNat = 9 then "\\t"
  else String.singleton c

def pyReprStr (s : String) : String :=
  String.singleton (Char.ofNat 39) ++ String.join (s.data.map reprEsc)
    ++ String.singleton (Char.ofNat 39)

/-! ## Result records, signing and verification -/

/-- `Response` (the wall-clock `latency_seconds` field is environmental and
carried by no checked property). -/
structure Response where
  response : Option String
  attempts : Nat
  model : String
  error : Option String
  success : Bool

/-- `Miner` (the opaque `chute` payload is read by none of the modelled code). -/
structure Miner where
  uid : Nat
  hotkey : String
  model : Option String
  revision : Option String
  block : Option Int
  slug : Option String

structure Evaluation where
  env : String
  score : ℚ
  extra : List (String × Json)

structure Result where
  version : String
  signature : String
  hotkey : String
  miner : Miner
  challenge : Challenge
  response : Response
  evaluation : Evaluation

/-- `str(challenge)` = `Challenge.__repr__`:
`f"<Challenge env={env.name!r} prompt={_truncate(prompt)!r}>"`. -/
def challengeStr (c : Challenge) : String :=
  "<Challenge env=" ++ pyReprStr c.env ++ " prompt="
    ++ pyReprStr (pyTruncate (some c.prompt)) ++ ">"

/-- Big-endian 3-byte serialisation of a code point. -/
def be3 (n : Nat) : List Nat := [n / 65536 % 256, n / 256 % 256, n % 256]

/-- Idealisation of the external keypair: the signature bytes the keypair of
`ss58` address `hk` produces over `data` are a fixed injective function of
(address, data). -/
def sigBytes (hk data : String) : List Nat :=
  ((hk ++ ":" ++ data).data.map (fun c => be3 c.toNat)).flatten

/-- The ss58 address of the wallet hotkey with seed `w` (injective). -/
def walletAddress (w : String) : String := "5" ++ w

def hexOfBytes (bs : List Nat) : String :=
  String.mk ((bs.map fun b => [hexDigit (b / 16 % 16), hexDigit (b % 16)]).flatten)

def hexVal (c : Char) : Option Nat :=
  if 48 ≤ c.toNat ∧ c.toNat ≤ 57 then some (c.toNat - 48)
  else if 97 ≤ c.toNat ∧ c.toNat ≤ 102 then some (c.toNat - 87)
  else if 65 ≤ c.toNat ∧ c.toNat ≤ 70 then some (c.toNat - 55)
  else none

/-- `bytes.fromhex`: hex digit pairs to bytes; fails (raising `ValueError` in
Python, here `none`) on an odd digit count or a non-hex character. -/
def hexPairsToBytes : List Char → Option (List Nat)
  | [] => some []
  | [_] => none
  | c1 :: c2 :: rest =>
    match hexVal c1, hexVal c2, hexPairsToBytes rest with
    | some h, some l, some bs => some ((h * 16 + l) :: bs)
    | _, _, _ => none

def hexToBytes (s : String) : Option (List Nat) := hexPairsToBytes s.data

/-- `Result.sign(wallet)`: set `hotkey` to the wallet's address and `signature`
to the hex of the wallet's signature over `str(self.challenge)`. -/
def Result.sign (r : Result) (w : String) : Result :=
  { r with hotkey := walletAddress w,
           signature := hexOfBytes (sigBytes (walletAddress w) (challengeStr r.challenge)) }

/-- `Result.verify()`: decode the signature from hex (`none` models the
uncaught `ValueError` of `bytes.fromhex`) and check it against the keypair of
`self.hotkey` over `str(self.challenge)`. -/
def Result.verify (r : Result) : Option Bool :=
  (hexToBytes r.signature).map
    (fun bs => bs == sigBytes r.hotkey (challengeStr r.challenge))

/-! ## Dataset streaming (`dataset`): per-line decode / verify / skip -/

/-- One shard line as the code distinguishes it: either it decodes to a
`Result` (`some r`) or `json`/pydantic decoding raises (`none`). -/
def lineAccept (l : Option Result) : Option Result :=
  match l with
  | none => none
  | some r =>
    match r.verify with
    | some true => some r
    | _ => none

/-- The verified `Result`s yielded by `dataset` for the given shards, shards in
sorted key order and lines in file order; a line is yielded exactly when it
decodes and verifies, every other line is skipped silently (decode errors and
`verify` exceptions are caught by the `except: pass`). -/
def datasetYield (shards : List (List (Option Result))) : List Result :=
  (shards.map (fun lines => lines.filterMap lineAccept)).flatten

/-! ## Query dispatcher (`query`): retry loop with terminal short-circuit -/

/-- One HTTP attempt as the environment resolves it: either a response arrived
(with status, body text, and the outcome of 2xx JSON content extraction), or
the request raised (network error, timeout). -/
inductive AttemptOutcome where
  | reply (status : Nat) (txt : String) (parsed : Except String String) : AttemptOutcome
  | netfail (e : String) : AttemptOutcome

def TERMINAL : List Nat := [400, 404, 410]

/-- The error string `f"{r.status}:{txt}"` recorded on a terminal status. -/
def termErr (status : Nat) (txt : String) : String := toString status ++ ":" ++ txt

def mkResp (resp : Option String) (attempt : Nat) (model : String)
    (err : Option String) (ok : Bool) : Response :=
  ⟨resp, attempt, model, err, ok⟩

/-- The body of `query`'s `for attempt in range(1, retries+2)` loop. The second
component collects the backoff sleeps performed, each recorded as its base
amount `backoff * 2^(attempt-1)` (the multiplicative ±10% jitter factor does
not affect whether a sleep happens). `fuel` counts the loop iterations left;
`query` supplies `retries + 1`, and the fuel-0 value models the `None` Python
returns if the loop were exhausted (unreachable: the last iteration always
returns). -/
def queryGo (oracle : Nat → AttemptOutcome) (model : String) (retries : Nat)
    (backoff : ℚ) : Nat → Nat → Response × List ℚ
  | _, 0 => (mkResp none 0 model (some "loop exhausted") false, [])
  | attempt, fuel + 1 =>
    let onExc := fun (e : String) =>
      if retries < attempt then (mkResp none attempt model (some e) false, ([] : List ℚ))
      else
        let rest := queryGo oracle model retries backoff (attempt + 1) fuel
        (rest.1, backoff * 2 ^ (attempt - 1) :: rest.2)
    match oracle attempt with
    | .netfail e => onExc e
    | .reply status txt parsed =>
      if status ∈ TERMINAL then
        (mkResp none attempt model (some (termErr status txt)) false, [])
      else if 400 ≤ status then onExc ("HTTP error " ++ toString status)
      else
        match parsed with
        | .ok content => (mkResp (some content) attempt model none true, [])
        | .error e => onExc e

/-- `query(...)`: run the attempt loop from attempt 1. -/
def query (oracle : Nat → AttemptOutcome) (model : String) (retries : Nat)
    (backoff : ℚ) : Response × List ℚ :=
  queryGo oracle model retries backoff 1 (retries + 1)

/-! ## Weight engine (`get_weights`) -/

def ENVS : List String := ["SAT", "ABD", "DED"]

/-- Accumulator state of the result loop: `cnt[hk][env]`, `succ[hk][env]`
(`defaultdict(int)` per registered hotkey, modelled as total maps defaulting
to 0 with registration enforced by the membership test below), and the
insertion-ordered `prev` dict. -/
structure WState where
  cnt : String → String → Nat
  succ : String → String → ℚ
  prev : List (String × Result)

def initState : WState := ⟨fun _ _ => 0, fun _ _ => 0, []⟩

/-- `prev[hk] = c` on a Python dict: replace in place if the key is present
(iteration position preserved), else append. -/
def updAssoc (l : List (String × Result)) (k : String) (v : Result) :
    List (String × Result) :=
  if (l.lookup k).isSome then l.map (fun p => if p.1 = k then (k, v) else p)
  else l ++ [(k, v)]

/-- `str.lower()` (ASCII case folding, which covers the modelled model ids). -/
def pyLowerChar (c : Char) : Char :=
  if 65 ≤ c.toNat ∧ c.toNat ≤ 90 then Char.ofNat (c.toNat + 32) else c

def lowerStr (s : String) : String := String.mk (s.data.map pyLowerChar)

/-- `str.startswith(pre)`. -/
def strStarts (s pre : String) : Bool := pre.data.isPrefixOf s.data

/-- Everything after the first separator, if any. -/
def splitTail (sep : Char) : List Char → Option (List Char)
  | [] => none
  | c :: cs => if c = sep then some cs else splitTail sep cs

/-- `c.miner.model.split('/', 1)[1].lower()`. A `None` model raises
`AttributeError`; a model with no `'/'` yields a one-element list, so the
`[1]` raises `IndexError`. Neither exception is caught inside `get_weights`. -/
def nameAfterSlash : Option String → Except String String
  | none => .error "AttributeError: 'NoneType' object has no attribute 'split'"
  | some m =>
    match splitTail '/' m.data with
    | none => .error "IndexError: list index out of range"
    | some rest => .ok (lowerStr (String.mk rest))

/-- Whether the result-loop body processes `c` rather than `continue`-skipping
it (assuming the name computation did not raise). -/
def acceptedB (hotkeys : List String) (c : Result) : Bool :=
  match nameAfterSlash c.miner.model with
  | .error _ => false
  | .ok name => decide (c.miner.hotkey ∈ hotkeys) && strStarts name "affine"

/-- One iteration of `get_weights`' `async for c in dataset(...)` body. -/
def stepResult (hotkeys : List String) (st : WState) (c : Result) :
    Except String WState :=
  match nameAfterSlash c.miner.model with
  | .error e => .error e
  | .ok name =>
    if c.miner.hotkey ∈ hotkeys ∧ strStarts name "affine" = true then
      let hk := c.miner.hotkey
      let env := c.challenge.env
      let st1 :=
        match st.prev.lookup hk with
        | some p =>
          if p.miner.block ≠ c.miner.block ∨ p.miner.model ≠ c.miner.model
              ∨ p.miner.revision ≠ c.miner.revision then
            { st with succ := fun h e => if h = hk ∧ e = env then 0 else st.succ h e }
          else st
        | none => st
      .ok { cnt := fun h e => if h = hk ∧ e = env then st1.cnt h e + 1 else st1.cnt h e,
            succ := fun h e => if h = hk ∧ e = env then st1.succ h e + c.evaluation.score
                               else st1.succ h e,
            prev := updAssoc st1.prev hk c }
    else .ok st

/-- The whole result loop over the stream, in stream order. -/
def runResults (hotkeys : List String) (results : List Result) :
    Except String WState :=
  results.foldlM (stepResult hotkeys) initState

/-- `acc[hk][e] = float(succ[hk][e]) / cnt[hk][e] if cnt[hk][e] else 0`. -/
def accOf (st : WState) (hk e : String) : ℚ :=
  if st.cnt hk e ≠ 0 then st.succ hk e / (st.cnt hk e : ℚ) else 0

/-- Descending order used by `sorted(..., reverse=True)`. -/
def descGe (a b : ℚ) : Prop := b ≤ a

instance : DecidableRel descGe := fun a b => inferInstanceAs (Decidable (b ≤ a))

instance : IsTotal ℚ descGe := ⟨fun a b => le_total b a⟩

instance : IsTrans ℚ descGe := ⟨fun _ _ _ h1 h2 => le_trans h2 h1⟩

/-- `sorted({...distinct values...}, reverse=True)`. -/
def uniqDesc (vals : List ℚ) : List ℚ := List.insertionSort descGe vals.dedup

/-- `rank_of[v] = i + 1` for `v` the `i`-th entry of the descending distinct
list: the dense rank of `v` among `vals`. -/
def denseRank (vals : List ℚ) (v : ℚ) : Nat := (uniqDesc vals).indexOf v + 1

def denseRanks (vals : List ℚ) : List Nat := vals.map (denseRank vals)

/-- The per-identity accuracies of one environment, over `meta.hotkeys`. -/
def envAccs (st : WState) (hotkeys : List String) (e : String) : List ℚ :=
  hotkeys.map (fun h => accOf st h e)

/-- `ranks[e][h]`. -/
def rankEnv (st : WState) (hotkeys : List String) (e h : String) : Nat :=
  denseRank (envAccs st hotkeys e) (accOf st h e)

/-- The dominance test of the `for a, b in permutations(...)` body:
ranks everywhere `≤` and somewhere `<`. -/
def dominatesB (st : WState) (hotkeys : List String) (a b : String) : Bool :=
  (ENVS.all fun e => decide (rankEnv st hotkeys e a ≤ rankEnv st hotkeys e b)) &&
  (ENVS.any fun e => decide (rankEnv st hotkeys e a < rankEnv st hotkeys e b))

/-- All ordered pairs of distinct positions. `itertools.permutations(l, 2)`
produces the same multiset in a different order; `dom` is a pure tally over
the pairs, so every count below is order-independent. -/
def ordPairs : List String → List (String × String)
  | [] => []
  | x :: xs => (xs.map fun y => (x, y)) ++ (xs.map fun y => (y, x)) ++ ordPairs xs

/-- `dom[a]`: the number of dominance pairs with first component `a`. -/
def domCount (st : WState) (hotkeys : List String) (a : String) : Nat :=
  ((ordPairs hotkeys).filter fun p => p.1 == a && dominatesB st hotkeys p.1 p.2).length

/-- Strict comparison of Python tuples `(dom, -block)`: `max` replaces its
running best exactly when the new key is strictly greater. -/
def lexGtP (x y : Nat × Int) : Prop := y.1 < x.1 ∨ (y.1 = x.1 ∧ y.2 < x.2)

instance : ∀ x y, Decidable (lexGtP x y) := fun x y =>
  inferInstanceAs (Decidable (y.1 < x.1 ∨ (y.1 = x.1 ∧ y.2 < x.2)))

/-- The `max` key `lambda hk: (dom[hk], -prev[hk].miner.block)`; the selection
below is guarded so that `getD` is only evaluated on present blocks. -/
def selKey (st : WState) (hotkeys : List String) (p : String × Result) : Nat × Int :=
  (domCount st hotkeys p.1, -(p.2.miner.block.getD 0))

/-- Python `max` over a nonempty sequence: fold keeping the first maximum. -/
def chooseBest (st : WState) (hotkeys : List String) (x : String × Result)
    (xs : List (String × Result)) : String × Result :=
  xs.foldl (fun b y => if lexGtP (selKey st hotkeys y) (selKey st hotkeys b) then y else b) x

/-- `best = max(prev, key=...)`: raises `ValueError` on an empty `prev` and
`TypeError` if any candidate's registration block is `None` (the key negates
it). -/
def selectBest (st : WState) (hotkeys : List String) : Except String String :=
  match st.prev with
  | [] => .error "ValueError: max() arg is an empty sequence"
  | x :: xs =>
    if (x :: xs).any (fun p => p.2.miner.block.isNone) then
      .error "TypeError: bad operand type for unary -: 'NoneType'"
    else .ok (chooseBest st hotkeys x xs).1

/-- `get_weights`, from the verified result stream and `meta.hotkeys` to the
winning hotkey. The `max(acc[hk][e] for hk in meta.hotkeys)` computed before
ranking raises `ValueError` when the hotkey list is empty, hence the guard. -/
def getWeights (hotkeys : List String) (results : List Result) :
    Except String String :=
  match runResults hotkeys results with
  | .error e => .error e
  | .ok st =>
    if hotkeys.isEmpty then .error "ValueError: max() arg is an empty sequence"
    else selectBest st hotkeys

/-! ## Concrete sample records (used by witnesses) -/

def sampleChallenge : Challenge := mkChallenge "SAT" "solve this instance" [] none

def sampleMiner : Miner :=
  ⟨7, walletAddress "m1", some "user/Affine-model", some "rev1", some 100, some "slug"⟩

def sampleResponse : Response := ⟨some "answer", 1, "user/Affine-model", none, true⟩

def sampleEvaluation : Evaluation := ⟨"SAT", 1, []⟩

def sampleResult : Result :=
  ⟨"0.0.0", "", "", sampleMiner, sampleChallenge, sampleResponse, sampleEvaluation⟩

def sampleSigned : Result := sampleResult.sign "w1"

def minerRev2 : Miner := { sampleMiner with revision := some "rev2" }

def resultRev2 : Result :=
  { sampleResult with miner := minerRev2, evaluation := ⟨"SAT", 1/2, []⟩ }

def hkSample : List String := [sampleMiner.hotkey]

def stBefore : WState :=
  ⟨fun _ _ => 2, fun _ _ => 3, [(sampleMiner.hotkey, sampleResult)]⟩

def stAfter : WState :=
  match stepResult hkSample stBefore resultRev2 with
  | .ok s => s
  | .error _ => initState

def minerNoModel : Miner := ⟨1, "hkx", none, some "r", some 5, none⟩

def resultNoModel : Result := { sampleResult with miner := minerNoModel }

def minerNoSlash : Miner := ⟨2, "hkx", some "affine9000", some "r", some 5, none⟩

def resultNoSlash : Result := { sampleResult with miner := minerNoSlash }

def minerUnreg : Miner := ⟨3, "unregistered", some "user/affine-x", some "r", some 5, none⟩

def resultUnreg : Result := { sampleResult with miner := minerUnreg }

def minerNonAffine : Miner := ⟨4, "hkx", some "user/other-model", some "r", some 5, none⟩

def resultNonAffine : Result := { sampleResult with miner := minerNonAffine }

def chalA : Challenge := mkChallenge "SAT" "a  b" [] none

def chalB : Challenge := mkChallenge "SAT" "a b" [] none

def resultA : Result := { sampleResult with challenge := chalA }

def minerB : Miner := ⟨8, "hB", some "u/affineB", some "r2", some 50, none⟩

def resultB : Result :=
  { sampleResult with miner := minerB, evaluation := ⟨"SAT", 0, []⟩ }

def exHK : List String := [walletAddress "m1", "hB"]

def exRS : List Result := [sampleResult, resultB]

def exSt : WState :=
  match runResults exHK exRS with
  | .ok s => s
  | .error _ => initState

def exW : String :=
  match getWeights exHK exRS with
  | .ok s => s
  | .error _ => ""

/-! ## Known-answer checks for the SHA-256 embedding -/

theorem sha256hex_vec_empty :
    sha256hex "" = "e3b0c44298fc1c149afbf4c8996fb92427ae41e4649b934ca495991b7852b855" := by
  decide

theorem sha256hex_vec_abc :
    sha256hex "abc" = "ba7816bf8f01cfea414140de5dae2223b00361a396177a9cb410ff61f20015ad" := by
  decide

/-! ## C6: verification ignores every field outside the signature envelope -/

/-- C6: for every signed Result, `verify()` is unchanged under any modification
of the `response`, `evaluation`, `miner`, or `version` fields — verification
depends only on the signer hotkey, the signature and the Challenge, so a
validly-signed envelope attached to forged scoring data for the same challenge
still verifies. -/
theorem verify_ignores_payload (r : Result) (resp : Response) (ev : Evaluation)
    (m : Miner) (ver : String) :
    Result.verify { r with response := resp, evaluation := ev, miner := m, version := ver }
      = Result.verify r := rfl

/-! ## C8: terminal statuses short-circuit the query retry loop -/

/-- C8: an attempt that receives a response whose status is in the terminal set
`{400, 404, 410}` makes `query` return immediately a failed `Response`
recording that status, with no further attempt and no backoff sleep whatever
the retry budget; arriving on the first attempt it yields `attempts = 1`. -/
theorem query_terminal_short_circuit
    (oracle : Nat → AttemptOutcome) (model : String) (retries : Nat) (backoff : ℚ)
    (attempt fuel status : Nat) (txt : String) (parsed : Except String String)
    (hstat : oracle attempt = .reply status txt parsed)
    (hterm : status ∈ TERMINAL) :
    queryGo oracle model retries backoff attempt (fuel + 1)
        = (mkResp none attempt model (some (termErr status txt)) false, [])
    ∧ (attempt = 1 → fuel = retries →
        query oracle model retries backoff
          = (mkResp none 1 model (some (termErr status txt)) false, [])) := by
  constructor
  · simp only [queryGo, hstat]
    rw [if_pos hterm]
  · rintro rfl rfl
    simp only [query, queryGo, hstat]
    rw [if_pos hterm]

theorem query_terminal_short_circuit_witness :
    queryGo (fun _ => .reply 404 "not found" (.error "no json")) "mdl" 3 1 1 (3 + 1)
        = (mkResp none 1 "mdl" (some (termErr 404 "not found")) false, [])
    ∧ (1 = 1 → 3 = 3 →
        query (fun _ => .reply 404 "not found" (.error "no json")) "mdl" 3 1
          = (mkResp none 1 "mdl" (some (termErr 404 "not found")) false, [])) :=
  query_terminal_short_circuit (fun _ => .reply 404 "not found" (.error "no json"))
    "mdl" 3 1 1 3 404 "not found" (.error "no json") rfl (by decide)

/-! ## C9: the skip path of the weight loop is not total -/

/-- C9 (code bug): the weight loop does skip Results with an unregistered
hotkey or a non-`affine` model name without touching any accumulator, but the
skip path is not total: `c.miner.model.split('/', 1)[1]` is evaluated before
the test, so a verified Result whose miner model is `None` raises
`AttributeError` and one whose model has no `'/'` raises `IndexError`,
aborting the whole weight computation instead of being skipped. -/
theorem get_weights_model_crash :
    getWeights ["hkx"] [resultNoModel]
        = .error "AttributeError: 'NoneType' object has no attribute 'split'"
    ∧ getWeights ["hkx"] [resultNoSlash]
        = .error "IndexError: list index out of range"
    ∧ stepResult ["hkx"] initState resultUnreg = .ok initState
    ∧ stepResult ["hkx"] initState resultNonAffine = .ok initState :=
  ⟨rfl, rfl, rfl, rfl⟩

/-! ## C3: the identity-change reset -/

/-- C3: when a previous Result is on record for the identity and its miner
(block, model, revision) triple differs from the incoming Result's, the
accumulated score-sum for (identity, environment of the incoming Result) is
reset to zero before the new score is added (so it ends at exactly the new
score), no other score-sum changes, and no trial count is reset: the count for
the pair still increments and all others are untouched. -/
theorem reset_on_identity_change
    (hotkeys : List String) (st : WState) (c p : Result) (st2 : WState) (name : String)
    (hname : nameAfterSlash c.miner.model = .ok name)
    (haff : strStarts name "affine" = true)
    (hreg : c.miner.hotkey ∈ hotkeys)
    (hprev : st.prev.lookup c.miner.hotkey = some p)
    (hdiff : p.miner.block ≠ c.miner.block ∨ p.miner.model ≠ c.miner.model
              ∨ p.miner.revision ≠ c.miner.revision)
    (hstep : stepResult hotkeys st c = .ok st2) :
    st2.succ c.miner.hotkey c.challenge.env = c.evaluation.score
    ∧ (∀ h e, ¬(h = c.miner.hotkey ∧ e = c.challenge.env) → st2.succ h e = st.succ h e)
    ∧ st2.cnt c.miner.hotkey c.challenge.env = st.cnt c.miner.hotkey c.challenge.env + 1
    ∧ (∀ h e, ¬(h = c.miner.hotkey ∧ e = c.challenge.env) → st2.cnt h e = st.cnt h e) := by
  simp only [stepResult, hname] at hstep
  rw [if_pos ⟨hreg, haff⟩] at hstep
  rw [hprev] at hstep
  dsimp only at hstep
  rw [if_pos hdiff] at hstep
  injection hstep with h2
  subst h2
  refine ⟨by simp, fun h e hne => by dsimp only; rw [if_neg hne, if_neg hne], by simp,
          fun h e hne => by dsimp only; rw [if_neg hne]⟩

theorem reset_on_identity_change_witness :
    stAfter.succ resultRev2.miner.hotkey resultRev2.challenge.env = resultRev2.evaluation.score
    ∧ (∀ h e, ¬(h = resultRev2.miner.hotkey ∧ e = resultRev2.challenge.env) →
        stAfter.succ h e = stBefore.succ h e)
    ∧ stAfter.cnt resultRev2.miner.hotkey resultRev2.challenge.env
        = stBefore.cnt resultRev2.miner.hotkey resultRev2.challenge.env + 1
    ∧ (∀ h e, ¬(h = resultRev2.miner.hotkey ∧ e = resultRev2.challenge.env) →
        stAfter.cnt h e = stBefore.cnt h e) :=
  reset_on_identity_change hkSample stBefore resultRev2 sampleResult stAfter
    "affine-model" rfl rfl (by decide) rfl (by decide) rfl

/-! ## C7: the dataset stream yields exactly the decodable, verifying lines -/

theorem lineAccept_some (r : Result) :
    lineAccept (some r) = if Result.verify r = some true then some r else none := by
  cases hv : r.verify with
  | none => simp [lineAccept, hv]
  | some b => cases b <;> simp [lineAccept, hv]

theorem filterMap_lineAccept (lines : List (Option Result)) :
    lines.filterMap lineAccept
      = (lines.filterMap id).filter (fun r => decide (Result.verify r = some true)) := by
  induction lines with
  | nil => rfl
  | cons l ls ih =>
    cases l with
    | none => simpa [lineAccept] using ih
    | some r =>
      by_cases hv : Result.verify r = some true
      · simp [List.filterMap_cons, lineAccept_some, hv, ih]
      · simp [List.filterMap_cons, lineAccept_some, hv, ih]

/-- C7: for every shard line, a line that fails to decode into a Result, or
whose `verify()` returns false or raises, is skipped silently and iteration
continues; the stream yields exactly the lines that decode into a Result whose
`verify()` returns true, and a malformed or unverifiable line never aborts the
stream (deleting it from any position leaves the rest of the yield
unchanged). -/
theorem dataset_yield_exactly (shards : List (List (Option Result)))
    (pre post : List (Option Result)) (l : Option Result)
    (hbad : l = none ∨ ∃ r, l = some r ∧ Result.verify r ≠ some true) :
    datasetYield shards
      = (shards.flatten.filterMap id).filter (fun r => decide (Result.verify r = some true))
    ∧ (pre ++ l :: post).filterMap lineAccept = (pre ++ post).filterMap lineAccept := by
  constructor
  · induction shards with
    | nil => rfl
    | cons s ss ih =>
      simp only [datasetYield, List.map_cons, List.flatten_cons] at ih ⊢
      rw [List.filterMap_append, List.filter_append, filterMap_lineAccept, ih]
  · have hl : lineAccept l = none := by
      rcases hbad with rfl | ⟨r, rfl, hv⟩
      · rfl
      · rw [lineAccept_some, if_neg hv]
    simp [List.filterMap_append, List.filterMap_cons, hl]

theorem dataset_yield_exactly_witness :
    datasetYield [[some sampleSigned, none], [some sampleResult]]
      = (([[some sampleSigned, none], [some sampleResult]] :
            List (List (Option Result))).flatten.filterMap id).filter
          (fun r => decide (Result.verify r = some true))
    ∧ ([some sampleSigned] ++ (some sampleResult) :: []).filterMap lineAccept
        = ([some sampleSigned] ++ []).filterMap lineAccept :=
  dataset_yield_exactly [[some sampleSigned, none], [some sampleResult]]
    [some sampleSigned] [] (some sampleResult)
    (Or.inr ⟨sampleResult, rfl, by decide⟩)

/-! ## C4: content-addressed challenge ids -/

theorem charToNat_inj {c d : Char} (h : c.toNat = d.toNat) : c = d := by
  cases c; cases d
  simp only [Char.toNat] at h
  congr 1
  exact UInt32.toNat.inj h

theorem charsLe_total : ∀ (a b : List Char), charsLe a b = true ∨ charsLe b a = true
  | [], _ => Or.inl rfl
  | _ :: _, [] => Or.inr rfl
  | x :: xs, y :: ys => by
    rcases Nat.lt_trichotomy x.toNat y.toNat with hxy | hxy | hxy
    · left; simp [charsLe, hxy]
    · rcases charsLe_total xs ys with ih | ih
      · left; simp [charsLe, hxy, ih]
      · right; simp [charsLe, hxy.symm, ih]
    · right; simp [charsLe, hxy]

theorem charsLe_trans : ∀ {a b c : List Char},
    charsLe a b = true → charsLe b c = true → charsLe a c = true
  | [], _, _, _, _ => rfl
  | _ :: _, [], _, h1, _ => by simp [charsLe] at h1
  | _ :: _, _ :: _, [], _, h2 => by simp [charsLe] at h2
  | x :: xs, y :: ys, z :: zs, h1, h2 => by
    simp only [charsLe] at h1 h2 ⊢
    rcases Nat.lt_trichotomy x.toNat y.toNat with hxy | hxy | hxy
    · rcases Nat.lt_trichotomy y.toNat z.toNat with hyz | hyz | hyz
      · rw [if_pos (by omega)]
      · rw [if_pos (by omega)]
      · rw [if_neg (by omega), if_pos (by omega)] at h2; simp at h2
    · rcases Nat.lt_trichotomy y.toNat z.toNat with hyz | hyz | hyz
      · rw [if_pos (by omega)]
      · rw [if_neg (by omega), if_neg (by omega)] at h1
        rw [if_neg (by omega), if_neg (by omega)] at h2
        rw [if_neg (by omega), if_neg (by omega)]
        exact charsLe_trans h1 h2
      · rw [if_neg (by omega), if_pos (by omega)] at h2; simp at h2
    · rw [if_neg (by omega), if_pos (by omega)] at h1; simp at h1

theorem charsLe_antisymm : ∀ {a b : List Char},
    charsLe a b = true → charsLe b a = true → a = b
  | [], [], _, _ => rfl
  | [], _ :: _, _, h2 => by simp [charsLe] at h2
  | _ :: _, [], h1, _ => by simp [charsLe] at h1
  | x :: xs, y :: ys, h1, h2 => by
    simp only [charsLe] at h1 h2
    rcases Nat.lt_trichotomy x.toNat y.toNat with hxy | hxy | hxy
    · rw [if_neg (by omega), if_pos (by omega)] at h2; simp at h2
    · rw [if_neg (by omega), if_neg (by omega)] at h1
      rw [if_neg (by omega), if_neg (by omega)] at h2
      rw [charToNat_inj hxy, charsLe_antisymm h1 h2]
    · rw [if_neg (by omega), if_pos (by omega)] at h1; simp at h1

theorem pyStrLe_antisymm {s t : String} (h1 : pyStrLe s t = true)
    (h2 : pyStrLe t s = true) : s = t := by
  cases s; cases t
  exact congrArg String.mk (charsLe_antisymm h1 h2)

theorem sortKvs_sorted (l : List (String × Json)) : List.Sorted keyLe (sortKvs l) :=
  @List.sorted_insertionSort _ keyLe _
    ⟨fun a b => charsLe_total a.1.data b.1.data⟩
    ⟨fun _ _ _ h1 h2 => charsLe_trans h1 h2⟩ l

theorem sortKvs_perm (l : List (String × Json)) : (sortKvs l).Perm l :=
  List.perm_insertionSort keyLe l

theorem sortKvs_eq_of_perm {l1 l2 : List (String × Json)} (h12 : l1.Perm l2)
    (hnd : (l1.map Prod.fst).Nodup) : sortKvs l1 = sortKvs l2 := by
  have hnd1 : ((sortKvs l1).map Prod.fst).Nodup :=
    (((sortKvs_perm l1).map Prod.fst).nodup_iff).2 hnd
  have hnd2 : ((sortKvs l2).map Prod.fst).Nodup :=
    (((sortKvs_perm l2).map Prod.fst).nodup_iff).2 ((h12.map Prod.fst).nodup_iff.1 hnd)
  have hpw1 : (sortKvs l1).Pairwise (fun p q => keyLe p q ∧ p.1 ≠ q.1) :=
    (sortKvs_sorted l1).and (List.pairwise_map.1 hnd1)
  have hpw2 : (sortKvs l2).Pairwise (fun p q => keyLe p q ∧ p.1 ≠ q.1) :=
    (sortKvs_sorted l2).and (List.pairwise_map.1 hnd2)
  have hperm : (sortKvs l1).Perm (sortKvs l2) :=
    ((sortKvs_perm l1).trans h12).trans (sortKvs_perm l2).symm
  exact @List.eq_of_perm_of_sorted _ (fun p q => keyLe p q ∧ p.1 ≠ q.1)
    ⟨fun a b h1 h2 => absurd (pyStrLe_antisymm h1.1 h2.1) h1.2⟩ _ _ hperm hpw1 hpw2

theorem perm_jsizeP {l1 l2 : List (String × Json)} (h : l1.Perm l2) :
    jsizeP l1 = jsizeP l2 := by
  induction h with
  | nil => rfl
  | cons x _ ih => simp [jsizeP, ih]
  | swap x y l => simp [jsizeP]; omega
  | trans _ _ ih1 ih2 => omega

theorem sortKvs_three (A B C : Json) :
    sortKvs [("env", A), ("prompt", B), ("extra", C)]
      = [("env", A), ("extra", C), ("prompt", B)] := by
  have h2 : keyLe ("env", A) ("extra", C) := by simp only [keyLe]; decide
  simp only [sortKvs, List.insertionSort, List.orderedInsert]
  rw [if_pos h2]

theorem canonical_perm (e p : String) {x1 x2 : List (String × Json)}
    (hperm : x1.Perm x2) (hnd : (x1.map Prod.fst).Nodup) :
    canonicalChallenge e p x1 = canonicalChallenge e p x2 := by
  have hs : sortKvs x1 = sortKvs x2 := sortKvs_eq_of_perm hperm hnd
  have hsz : jsizeP x1 = jsizeP x2 := perm_jsizeP hperm
  unfold canonicalChallenge serJson
  have hf1 : jsize (Json.obj [("env", Json.str e), ("prompt", Json.str p),
      ("extra", Json.obj x1)]) = (3 + jsizeP x1) + 1 := by
    simp [jsize, jsizeP]; omega
  have hf2 : jsize (Json.obj [("env", Json.str e), ("prompt", Json.str p),
      ("extra", Json.obj x2)]) = (3 + jsizeP x1) + 1 := by
    simp [jsize, jsizeP, ← hsz]; omega
  rw [hf1, hf2]
  simp only [serJsonF, sortKvs_three, List.map_cons, List.map_nil]
  have hx : serJsonF (3 + jsizeP x1) (Json.obj x1)
      = serJsonF (3 + jsizeP x1) (Json.obj x2) := by
    have h3 : 3 + jsizeP x1 = (2 + jsizeP x1) + 1 := by omega
    rw [h3]; simp only [serJsonF, hs]
  rw [hx]

/-- C4: constructing a Challenge without an explicit `challenge_id` sets the id
to the SHA-256 hex digest of the sorted-key, separator-normalized JSON of
`{env, prompt, extra}`; the construction is deterministic, permuting the
insertion order of the `extra` map leaves the id unchanged, and a
`challenge_id` that is already set is never regenerated. -/
theorem challenge_id_canonical (env prompt : String)
    (extra1 extra2 : List (String × Json)) (c : String)
    (hperm : extra1.Perm extra2) (hnd : (extra1.map Prod.fst).Nodup) :
    setChallengeId env prompt extra1 none
        = sha256hex (canonicalChallenge env prompt extra1)
    ∧ setChallengeId env prompt extra1 none = setChallengeId env prompt extra1 none
    ∧ setChallengeId env prompt extra1 none = setChallengeId env prompt extra2 none
    ∧ setChallengeId env prompt extra1 (some c) = c :=
  ⟨rfl, rfl,
   by unfold setChallengeId; rw [canonical_perm env prompt hperm hnd],
   rfl⟩

theorem challenge_id_canonical_witness :
    setChallengeId "SAT" "prove it" [("b", Json.int 1), ("a", Json.str "x")] none
        = sha256hex (canonicalChallenge "SAT" "prove it"
            [("b", Json.int 1), ("a", Json.str "x")])
    ∧ setChallengeId "SAT" "prove it" [("b", Json.int 1), ("a", Json.str "x")] none
        = setChallengeId "SAT" "prove it" [("b", Json.int 1), ("a", Json.str "x")] none
    ∧ setChallengeId "SAT" "prove it" [("b", Json.int 1), ("a", Json.str "x")] none
        = setChallengeId "SAT" "prove it" [("a", Json.str "x"), ("b", Json.int 1)] none
    ∧ setChallengeId "SAT" "prove it" [("b", Json.int 1), ("a", Json.str "x")]
        (some "preset") = "preset" :=
  challenge_id_canonical "SAT" "prove it" _ _ "preset"
    (List.Perm.swap ("a", Json.str "x") ("b", Json.int 1) []) (by decide)

/-! ## C5 and C10: signing and verification -/

theorem charToNat_lt (c : Char) : c.toNat < 16777216 := by
  rcases c.valid with h | ⟨h1, h2⟩
  · simp [Char.toNat]; omega
  · simp [Char.toNat]; omega

theorem hexVal_hexDigit (d : Nat) (h : d < 16) : hexVal (hexDigit d) = some d := by
  interval_cases d <;> rfl

theorem hexToBytes_hexOfBytes : ∀ (bs : List Nat), (∀ b ∈ bs, b < 256) →
    hexToBytes (hexOfBytes bs) = some bs
  | [], _ => rfl
  | b :: rest, h => by
    have hb : b < 256 := h b (List.mem_cons_self b rest)
    have hrest := hexToBytes_hexOfBytes rest (fun x hx => h x (List.mem_cons_of_mem b hx))
    have hrest2 : hexPairsToBytes (hexOfBytes rest).data = some rest := hrest
    have key : hexPairsToBytes
        (hexDigit (b / 16 % 16) :: hexDigit (b % 16) :: (hexOfBytes rest).data)
        = some (b :: rest) := by
      simp only [hexPairsToBytes]
      rw [hexVal_hexDigit _ (by omega), hexVal_hexDigit _ (by omega), hrest2]
      have harith : b / 16 % 16 * 16 + b % 16 = b := by omega
      show some ((b / 16 % 16 * 16 + b % 16) :: rest) = some (b :: rest)
      rw [harith]
    exact key

theorem sigBytes_lt (hk d : String) : ∀ b ∈ sigBytes hk d, b < 256 := by
  intro b hb
  simp only [sigBytes, List.mem_flatten, List.mem_map] at hb
  obtain ⟨l, ⟨c, _, rfl⟩, hbl⟩ := hb
  simp only [be3, List.mem_cons, List.not_mem_nil, or_false] at hbl
  rcases hbl with rfl | rfl | rfl <;> omega

theorem be3_map_inj : ∀ {cs1 cs2 : List Char},
    (cs1.map (fun c => be3 c.toNat)).flatten = (cs2.map (fun c => be3 c.toNat)).flatten →
    cs1 = cs2
  | [], [], _ => rfl
  | [], c :: cs, h => by simp [be3] at h
  | c :: cs, [], h => by simp [be3] at h
  | c :: cs, c2 :: cs2, h => by
    simp only [List.map_cons, List.flatten_cons, be3, List.cons_append, List.nil_append,
      List.cons.injEq] at h
    obtain ⟨h1, h2, h3, hrest⟩ := h
    have hc : c.toNat = c2.toNat := by
      have b1 := charToNat_lt c
      have b2 := charToNat_lt c2
      omega
    rw [charToNat_inj hc, be3_map_inj hrest]

theorem sigBytes_inj {hk1 hk2 d : String} (h : sigBytes hk1 d = sigBytes hk2 d) :
    hk1 = hk2 := by
  have hdata : (hk1 ++ ":" ++ d).data = (hk2 ++ ":" ++ d).data := be3_map_inj h
  rw [String.data_append, String.data_append, String.data_append, String.data_append]
    at hdata
  have h1 := List.append_left_injective d.data hdata
  have h2 := List.append_left_injective (":" : String).data h1
  cases hk1; cases hk2
  exact congrArg String.mk h2

theorem walletAddress_inj {w1 w2 : String} (h : walletAddress w1 = walletAddress w2) :
    w1 = w2 := by
  unfold walletAddress at h
  have hd : ("5" ++ w1).data = ("5" ++ w2).data := by rw [h]
  rw [String.data_append, String.data_append] at hd
  simp only [List.cons_append, List.nil_append, List.cons.injEq] at hd
  cases w1; cases w2
  exact congrArg String.mk hd.2

/-- C5 (amended): signing then verifying the unchanged Result returns true;
replacing the signature by a different value that hex-decodes to different
bytes, or replacing the hotkey by a different identity, makes `verify()`
return false; but replacing the signature by a non-hex-decodable value makes
`verify()` raise `ValueError` from `bytes.fromhex` (modelled as `none`) rather
than return false. -/
theorem sign_verify_roundtrip (r : Result) (w w2 : String) (s : String) (bs : List Nat)
    (hdec : hexToBytes s = some bs)
    (hbs : bs ≠ sigBytes (walletAddress w) (challengeStr r.challenge))
    (hw : w2 ≠ w) :
    (r.sign w).verify = some true
    ∧ Result.verify { r.sign w with signature := s } = some false
    ∧ Result.verify { r.sign w with hotkey := walletAddress w2 } = some false
    ∧ (∀ s2, hexToBytes s2 = none →
        Result.verify { r.sign w with signature := s2 } = none) := by
  refine ⟨?_, ?_, ?_, ?_⟩
  · simp only [Result.verify, Result.sign]
    rw [hexToBytes_hexOfBytes _ (sigBytes_lt _ _)]
    simp only [Option.map_some', beq_self_eq_true]
  · simp only [Result.verify, Result.sign]
    rw [hdec]
    simp only [Option.map_some']
    rw [beq_eq_false_iff_ne.mpr hbs]
  · simp only [Result.verify, Result.sign]
    rw [hexToBytes_hexOfBytes _ (sigBytes_lt _ _)]
    simp only [Option.map_some']
    have hne : sigBytes (walletAddress w) (challengeStr r.challenge)
        ≠ sigBytes (walletAddress w2) (challengeStr r.challenge) := by
      intro hcon
      exact hw (walletAddress_inj (sigBytes_inj hcon)).symm
    rw [beq_eq_false_iff_ne.mpr hne]
  · intro s2 h2
    simp only [Result.verify, Result.sign]
    rw [h2]
    rfl

theorem sign_verify_roundtrip_witness :
    (sampleResult.sign "w1").verify = some true
    ∧ Result.verify { sampleResult.sign "w1" with signature := "00" } = some false
    ∧ Result.verify { sampleResult.sign "w1" with hotkey := walletAddress "w9" }
        = some false
    ∧ (∀ s2, hexToBytes s2 = none →
        Result.verify { sampleResult.sign "w1" with signature := s2 } = none) :=
  sign_verify_roundtrip sampleResult "w1" "w9" "00" [0] (by decide) (by decide)
    (by decide)

/-- C5 counterexample: the claim as stated says that replacing the signature by
any different value makes `verify()` return false rather than raise; but the
non-hex value "zz" makes `bytes.fromhex` raise `ValueError` (modelled: `none`),
not return false. -/
theorem verify_nonhex_raises :
    Result.verify { sampleSigned with signature := "zz" } = none
    ∧ "zz" ≠ sampleSigned.signature :=
  ⟨rfl, by decide⟩

/-- C10: two Challenges with the same env and different prompts (hence
different challenge ids) can share their signed payload: `sign` signs
`str(challenge)`, whose prompt is collapsed and truncated by `_truncate`, so a
signature produced for a Result holding one challenge still verifies after the
challenge is swapped for the other. -/
theorem sign_truncation_collision :
    chalA.prompt ≠ chalB.prompt
    ∧ chalA.env = chalB.env
    ∧ chalA.challenge_id ≠ chalB.challenge_id
    ∧ challengeStr chalA = challengeStr chalB
    ∧ Result.verify { resultA.sign "wX" with challenge := chalB } = some true := by
  refine ⟨by decide, rfl, by decide, rfl, ?_⟩
  have hrepr : challengeStr chalB = challengeStr resultA.challenge := rfl
  simp only [Result.verify, Result.sign, hrepr]
  rw [hexToBytes_hexOfBytes _ (sigBytes_lt _ _)]
  simp only [Option.map_some', beq_self_eq_true]

/-! ## C2: dense ranks -/

theorem uniqDesc_perm (vals : List ℚ) : (uniqDesc vals).Perm vals.dedup :=
  List.perm_insertionSort descGe vals.dedup

theorem mem_uniqDesc {v : ℚ} {vals : List ℚ} : v ∈ uniqDesc vals ↔ v ∈ vals := by
  rw [(uniqDesc_perm vals).mem_iff, List.mem_dedup]

theorem uniqDesc_sorted (vals : List ℚ) : List.Sorted descGe (uniqDesc vals) :=
  List.sorted_insertionSort descGe vals.dedup

theorem uniqDesc_nodup (vals : List ℚ) : (uniqDesc vals).Nodup :=
  (uniqDesc_perm vals).nodup_iff.2 (List.nodup_dedup vals)

theorem denseRank_max {vals : List ℚ} {v : ℚ} (hv : v ∈ vals)
    (hmax : ∀ w ∈ vals, w ≤ v) : denseRank vals v = 1 := by
  unfold denseRank
  cases huniq : uniqDesc vals with
  | nil =>
    exfalso
    have hmem := mem_uniqDesc.2 hv
    rw [huniq] at hmem
    exact (List.not_mem_nil v) hmem
  | cons u rest =>
    have hu : u ∈ vals := mem_uniqDesc.1 (by rw [huniq]; exact List.mem_cons_self u rest)
    have h1 : u ≤ v := hmax u hu
    have hv2 : v ∈ u :: rest := by rw [← huniq]; exact mem_uniqDesc.2 hv
    have h2 : v ≤ u := by
      rcases List.mem_cons.1 hv2 with rfl | hvr
      · exact le_refl v
      · have hs := uniqDesc_sorted vals
        rw [huniq] at hs
        exact (List.sorted_cons.1 hs).1 v hvr
    rw [le_antisymm h2 h1, List.indexOf_cons_self]

theorem denseRank_le {vals : List ℚ} {v : ℚ} (hv : v ∈ vals) :
    1 ≤ denseRank vals v ∧ denseRank vals v ≤ vals.dedup.length := by
  constructor
  · unfold denseRank; omega
  · unfold denseRank
    have hm : v ∈ uniqDesc vals := mem_uniqDesc.2 hv
    have hlt := List.indexOf_lt_length.2 hm
    have hlen : (uniqDesc vals).length = vals.dedup.length := (uniqDesc_perm vals).length_eq
    omega

theorem denseRank_surj (vals : List ℚ) (j : Nat) (h1 : 1 ≤ j)
    (h2 : j ≤ vals.dedup.length) : ∃ v ∈ vals, denseRank vals v = j := by
  have hlen : (uniqDesc vals).length = vals.dedup.length := (uniqDesc_perm vals).length_eq
  have hj : j - 1 < (uniqDesc vals).length := by omega
  refine ⟨(uniqDesc vals).get ⟨j - 1, hj⟩,
    mem_uniqDesc.1 (List.get_mem _ _ _), ?_⟩
  unfold denseRank
  have hmemu : (uniqDesc vals).get ⟨j - 1, hj⟩ ∈ uniqDesc vals := List.get_mem _ _ _
  have hidx := List.indexOf_lt_length.2 hmemu
  have hget := List.indexOf_get (a := (uniqDesc vals).get ⟨j - 1, hj⟩) hidx
  have hfin := ((uniqDesc_nodup vals).get_inj_iff).1 hget
  have : (uniqDesc vals).indexOf ((uniqDesc vals).get ⟨j - 1, hj⟩) = j - 1 :=
    congrArg Fin.val hfin
  omega

/-- C2: in every environment, the rank of each identity is the dense rank of
its accuracy among the distinct accuracy values, descending: a maximal
accuracy gets rank 1, equal accuracies share a rank, ranks fill `1..k` with no
gaps (`k` = number of distinct values), and on the accuracy vectors
`[0.9, 0.9, 0.5]` and `[0.9, 0.8, 0.5]` the ranks are `[1, 1, 2]` and
`[1, 2, 3]`. -/
theorem dense_rank_of_accuracies (st : WState) (hotkeys : List String) (e h : String)
    (hmem : h ∈ hotkeys) :
    ((∀ h2 ∈ hotkeys, accOf st h2 e ≤ accOf st h e) → rankEnv st hotkeys e h = 1)
    ∧ (∀ h2, accOf st h2 e = accOf st h e →
        rankEnv st hotkeys e h2 = rankEnv st hotkeys e h)
    ∧ 1 ≤ rankEnv st hotkeys e h
    ∧ rankEnv st hotkeys e h ≤ (envAccs st hotkeys e).dedup.length
    ∧ (∀ j, 1 ≤ j → j ≤ (envAccs st hotkeys e).dedup.length →
        ∃ h2 ∈ hotkeys, rankEnv st hotkeys e h2 = j)
    ∧ hotkeys.map (rankEnv st hotkeys e) = denseRanks (envAccs st hotkeys e)
    ∧ denseRanks [mkRat 9 10, mkRat 9 10, mkRat 5 10] = [1, 1, 2]
    ∧ denseRanks [mkRat 9 10, mkRat 8 10, mkRat 5 10] = [1, 2, 3] := by
  have hv : accOf st h e ∈ envAccs st hotkeys e := List.mem_map.2 ⟨h, hmem, rfl⟩
  refine ⟨?_, ?_, ?_, ?_, ?_, ?_, by decide, by decide⟩
  · intro hmax
    apply denseRank_max hv
    intro w hw
    obtain ⟨h2, hh2, rfl⟩ := List.mem_map.1 hw
    exact hmax h2 hh2
  · intro h2 hacc
    unfold rankEnv
    rw [hacc]
  · exact (denseRank_le hv).1
  · exact (denseRank_le hv).2
  · intro j hj1 hj2
    obtain ⟨v, hvmem, hrank⟩ := denseRank_surj (envAccs st hotkeys e) j hj1 hj2
    obtain ⟨h2, hh2, rfl⟩ := List.mem_map.1 hvmem
    exact ⟨h2, hh2, hrank⟩
  · simp only [denseRanks, envAccs, List.map_map]
    rfl

theorem dense_rank_of_accuracies_witness :
    ((∀ h2 ∈ ["A"], accOf initState h2 "SAT" ≤ accOf initState "A" "SAT") →
        rankEnv initState ["A"] "SAT" "A" = 1)
    ∧ (∀ h2, accOf initState h2 "SAT" = accOf initState "A" "SAT" →
        rankEnv initState ["A"] "SAT" h2 = rankEnv initState ["A"] "SAT" "A")
    ∧ 1 ≤ rankEnv initState ["A"] "SAT" "A"
    ∧ rankEnv initState ["A"] "SAT" "A" ≤ (envAccs initState ["A"] "SAT").dedup.length
    ∧ (∀ j, 1 ≤ j → j ≤ (envAccs initState ["A"] "SAT").dedup.length →
        ∃ h2 ∈ ["A"], rankEnv initState ["A"] "SAT" h2 = j)
    ∧ (["A"] : List String).map (rankEnv initState ["A"] "SAT")
        = denseRanks (envAccs initState ["A"] "SAT")
    ∧ denseRanks [mkRat 9 10, mkRat 9 10, mkRat 5 10] = [1, 1, 2]
    ∧ denseRanks [mkRat 9 10, mkRat 8 10, mkRat 5 10] = [1, 2, 3] :=
  dense_rank_of_accuracies initState ["A"] "SAT" "A" (by decide)

/-! ## C1: the winner maximizes dominance, ties broken by lowest block -/

theorem lexGtP_irrefl (x : Nat × Int) : ¬ lexGtP x x := by
  obtain ⟨a, b⟩ := x
  simp [lexGtP]

theorem not_lexGtP_trans {a b c : Nat × Int} (h1 : ¬ lexGtP a b) (h2 : ¬ lexGtP b c) :
    ¬ lexGtP a c := by
  obtain ⟨a1, a2⟩ := a
  obtain ⟨b1, b2⟩ := b
  obtain ⟨c1, c2⟩ := c
  simp only [lexGtP, not_or, not_and, not_lt] at *
  omega

theorem lexGtP_asymm {a b : Nat × Int} (h : lexGtP a b) : ¬ lexGtP b a := by
  obtain ⟨a1, a2⟩ := a
  obtain ⟨b1, b2⟩ := b
  simp only [lexGtP, not_or, not_and, not_lt] at *
  omega

theorem foldBest_mem {α : Type} (key : α → Nat × Int) :
    ∀ (xs : List α) (x : α),
      xs.foldl (fun b y => if lexGtP (key y) (key b) then y else b) x ∈ x :: xs
  | [], x => List.mem_cons_self x []
  | z :: rest, x => by
    have ih := foldBest_mem key rest (if lexGtP (key z) (key x) then z else x)
    simp only [List.foldl_cons]
    rcases List.mem_cons.1 ih with h | h
    · rw [h]
      by_cases hc : lexGtP (key z) (key x)
      · simp [hc]
      · simp [hc]
    · exact List.mem_cons_of_mem x (List.mem_cons_of_mem z h)

theorem foldBest_ub {α : Type} (key : α → Nat × Int) :
    ∀ (xs : List α) (x : α) (y : α), y ∈ x :: xs →
      ¬ lexGtP (key y)
        (key (xs.foldl (fun b y => if lexGtP (key y) (key b) then y else b) x))
  | [], x, y, hy => by
    rcases List.mem_cons.1 hy with rfl | h
    · exact lexGtP_irrefl _
    · exact absurd h (List.not_mem_nil y)
  | z :: rest, x, y, hy => by
    simp only [List.foldl_cons]
    have hxx2 : ¬ lexGtP (key x) (key (if lexGtP (key z) (key x) then z else x)) := by
      by_cases hc : lexGtP (key z) (key x)
      · rw [if_pos hc]
        exact lexGtP_asymm hc
      · rw [if_neg hc]
        exact lexGtP_irrefl _
    have hzx2 : ¬ lexGtP (key z) (key (if lexGtP (key z) (key x) then z else x)) := by
      by_cases hc : lexGtP (key z) (key x)
      · rw [if_pos hc]
        exact lexGtP_irrefl _
      · rw [if_neg hc]
        exact hc
    have ihx2 := foldBest_ub key rest (if lexGtP (key z) (key x) then z else x)
      (if lexGtP (key z) (key x) then z else x) (List.mem_cons_self _ _)
    rcases List.mem_cons.1 hy with rfl | hy2
    · exact not_lexGtP_trans hxx2 ihx2
    · rcases List.mem_cons.1 hy2 with rfl | hy3
      · exact not_lexGtP_trans hzx2 ihx2
      · exact foldBest_ub key rest _ y (List.mem_cons_of_mem _ hy3)

theorem lookup_isSome_iff (l : List (String × Result)) (k : String) :
    (l.lookup k).isSome = true ↔ k ∈ l.map Prod.fst := by
  induction l with
  | nil => simp [List.lookup]
  | cons p rest ih =>
    obtain ⟨a, v⟩ := p
    by_cases hk : a = k
    · subst hk
      simp [List.lookup]
    · simp only [List.lookup]
      rw [show (k == a) = false from beq_eq_false_iff_ne.mpr (Ne.symm hk)]
      simp [List.mem_cons, Ne.symm hk, ih]

theorem updAssoc_keys (l : List (String × Result)) (k k2 : String) (v : Result) :
    k2 ∈ (updAssoc l k v).map Prod.fst ↔ (k2 ∈ l.map Prod.fst ∨ k2 = k) := by
  unfold updAssoc
  by_cases hs : (l.lookup k).isSome = true
  · rw [if_pos hs]
    have hkmem : k ∈ l.map Prod.fst := (lookup_isSome_iff l k).1 hs
    constructor
    · intro hmem
      obtain ⟨q, hq, hval⟩ := List.mem_map.1 hmem
      obtain ⟨p, hp, rfl⟩ := List.mem_map.1 hq
      by_cases hpk : p.1 = k
      · rw [if_pos hpk] at hval
        exact Or.inr hval.symm
      · rw [if_neg hpk] at hval
        exact Or.inl (List.mem_map.2 ⟨p, hp, hval⟩)
    · intro hor
      rcases hor with hmem | rfl
      · obtain ⟨p, hp, rfl⟩ := List.mem_map.1 hmem
        apply List.mem_map.2
        refine ⟨if p.1 = k then (k, v) else p, List.mem_map.2 ⟨p, hp, rfl⟩, ?_⟩
        by_cases hpk : p.1 = k
        · rw [if_pos hpk]
          exact hpk.symm
        · rw [if_neg hpk]
      · obtain ⟨p, hp, hpk⟩ := List.mem_map.1 hkmem
        apply List.mem_map.2
        exact ⟨(k2, v), List.mem_map.2 ⟨p, hp, by rw [if_pos hpk]⟩, rfl⟩
  · rw [if_neg hs]
    simp [List.map_append, List.mem_append]

theorem accepted_iff (hotkeys : List String) (c : Result) (name : String)
    (hname : nameAfterSlash c.miner.model = .ok name) :
    acceptedB hotkeys c = true ↔
      (c.miner.hotkey ∈ hotkeys ∧ strStarts name "affine" = true) := by
  unfold acceptedB
  rw [hname]
  simp [Bool.and_eq_true, decide_eq_true_iff]

theorem stepResult_keys {hotkeys : List String} {st : WState} {c : Result} {st2 : WState}
    (hstep : stepResult hotkeys st c = .ok st2) (hk : String) :
    hk ∈ st2.prev.map Prod.fst ↔
      (hk ∈ st.prev.map Prod.fst ∨ (acceptedB hotkeys c = true ∧ c.miner.hotkey = hk)) := by
  cases hname : nameAfterSlash c.miner.model with
  | error e =>
    simp only [stepResult, hname] at hstep
    exact Except.noConfusion hstep
  | ok name =>
    simp only [stepResult, hname] at hstep
    by_cases hcond : c.miner.hotkey ∈ hotkeys ∧ strStarts name "affine" = true
    · rw [if_pos hcond] at hstep
      have haccept : acceptedB hotkeys c = true :=
        (accepted_iff hotkeys c name hname).2 hcond
      have hprev : st2.prev = updAssoc st.prev c.miner.hotkey c := by
        cases hlook : st.prev.lookup c.miner.hotkey with
        | none =>
          rw [hlook] at hstep
          injection hstep with h2
          subst h2
          rfl
        | some p =>
          rw [hlook] at hstep
          dsimp only at hstep
          by_cases hd : p.miner.block ≠ c.miner.block ∨ p.miner.model ≠ c.miner.model
              ∨ p.miner.revision ≠ c.miner.revision
          · rw [if_pos hd] at hstep
            injection hstep with h2
            subst h2
            rfl
          · rw [if_neg hd] at hstep
            injection hstep with h2
            subst h2
            rfl
      rw [hprev, updAssoc_keys]
      simp only [haccept, true_and]
      constructor
      · rintro (h | rfl)
        · exact Or.inl h
        · exact Or.inr rfl
      · rintro (h | rfl)
        · exact Or.inl h
        · exact Or.inr rfl
    · rw [if_neg hcond] at hstep
      injection hstep with h2
      subst h2
      have hfalse : acceptedB hotkeys c = false := by
        rw [← Bool.not_eq_true, accepted_iff hotkeys c name hname]
        exact hcond
      simp [hfalse]

theorem runResults_keys (hotkeys : List String) :
    ∀ (results : List Result) (st0 stN : WState),
      results.foldlM (stepResult hotkeys) st0 = .ok stN →
      ∀ hk, hk ∈ stN.prev.map Prod.fst ↔
        (hk ∈ st0.prev.map Prod.fst ∨
          ∃ c ∈ results, acceptedB hotkeys c = true ∧ c.miner.hotkey = hk)
  | [], st0, stN, hfold, hk => by
    simp only [List.foldlM_nil] at hfold
    injection hfold with h2
    subst h2
    simp
  | c :: cs, st0, stN, hfold, hk => by
    simp only [List.foldlM_cons] at hfold
    cases hstep : stepResult hotkeys st0 c with
    | error e =>
      rw [hstep] at hfold
      exact Except.noConfusion hfold
    | ok st1 =>
      rw [hstep] at hfold
      have hrest : cs.foldlM (stepResult hotkeys) st1 = .ok stN := hfold
      have ihkeys := runResults_keys hotkeys cs st1 stN hrest hk
      have hstepk := stepResult_keys hstep hk
      rw [ihkeys, hstepk]
      constructor
      · rintro (⟨h | hc⟩ | ⟨c2, hc2, hP⟩)
        · exact Or.inl h
        · exact Or.inr ⟨c, List.mem_cons_self c cs, hc⟩
        · exact Or.inr ⟨c2, List.mem_cons_of_mem c hc2, hP⟩
      · rintro (h | ⟨c2, hc2, hP⟩)
        · exact Or.inl (Or.inl h)
        · rcases List.mem_cons.1 hc2 with rfl | hmem
          · exact Or.inl (Or.inr hP)
          · exact Or.inr ⟨c2, hmem, hP⟩

theorem ordPairs_fst_mem : ∀ {l : List String} {p : String × String},
    p ∈ ordPairs l → p.1 ∈ l
  | [], p, hp => absurd hp (List.not_mem_nil p)
  | x :: xs, p, hp => by
    simp only [ordPairs, List.mem_append, List.mem_map] at hp
    rcases hp with (⟨y, _, rfl⟩ | ⟨y, hy, rfl⟩) | hrec
    · exact List.mem_cons_self x xs
    · exact List.mem_cons_of_mem x hy
    · exact List.mem_cons_of_mem x (ordPairs_fst_mem hrec)

theorem filter_first_not_mem {l : List String} {a : String} (ha : a ∉ l)
    (c : String → Bool) : (l.filter fun y => y == a && c y) = [] := by
  rw [List.filter_eq_nil_iff]
  intro y hy
  simp only [Bool.and_eq_true, beq_iff_eq, not_and]
  intro hya
  exact absurd (hya ▸ hy) ha

theorem filter_count_one {xs : List String} (hnd : xs.Nodup) {a : String} (ha : a ∈ xs)
    (c : String → Bool) :
    (xs.filter fun y => y == a && c y).length = if c a then 1 else 0 := by
  induction xs with
  | nil => exact absurd ha (List.not_mem_nil a)
  | cons x rest ih =>
    obtain ⟨hx, hndr⟩ := List.nodup_cons.1 hnd
    by_cases hax : x = a
    · subst hax
      rw [List.filter_cons, filter_first_not_mem hx c]
      by_cases hca : c x = true
      · rw [if_pos (by simp [hca])]
        simp [hca]
      · rw [if_neg (by simp [hca])]
        simp [hca]
    · rcases List.mem_cons.1 ha with heq | hmem
      · exact absurd heq.symm hax
      · rw [List.filter_cons, if_neg (by simp [hax])]
        exact ih hndr hmem

theorem ordPairs_filter_none {l : List String} {a : String} (ha : a ∉ l)
    (D : String → String → Bool) :
    ((ordPairs l).filter fun p => p.1 == a && D p.1 p.2) = [] := by
  rw [List.filter_eq_nil_iff]
  intro p hp
  simp only [Bool.and_eq_true, beq_iff_eq, not_and]
  intro hpa
  exact absurd (hpa ▸ ordPairs_fst_mem hp) ha

theorem pair_count (D : String → String → Bool) (hD : ∀ x, D x x = false) :
    ∀ (l : List String), l.Nodup → ∀ a ∈ l,
      ((ordPairs l).filter fun p => p.1 == a && D p.1 p.2).length
        = (l.filter fun b => D a b).length
  | [], _, a, ha => absurd ha (List.not_mem_nil a)
  | x :: xs, hnd, a, ha => by
    obtain ⟨hx, hndr⟩ := List.nodup_cons.1 hnd
    simp only [ordPairs, List.filter_append, List.length_append]
    have hchunk1 : ((xs.map fun y => (x, y)).filter
        fun p => p.1 == a && D p.1 p.2).length
        = (xs.filter fun y => x == a && D x y).length := by
      rw [List.filter_map, List.length_map]
      rfl
    have hchunk2 : ((xs.map fun y => (y, x)).filter
        fun p => p.1 == a && D p.1 p.2).length
        = (xs.filter fun y => y == a && D y x).length := by
      rw [List.filter_map, List.length_map]
      rfl
    rcases List.mem_cons.1 ha with heq | hmem
    · subst heq
      rw [hchunk1, hchunk2, filter_first_not_mem hx (fun y => D y a),
        ordPairs_filter_none hx D]
      simp only [List.length_nil, add_zero]
      rw [List.filter_cons, if_neg (by simp [hD a])]
      simp
    · have hax : x ≠ a := fun h => hx (h ▸ hmem)
      rw [hchunk1, hchunk2]
      rw [show (xs.filter fun y => x == a && D x y) = [] from by
        rw [List.filter_eq_nil_iff]
        intro y hy
        simp [hax]]
      rw [filter_count_one hndr hmem (fun y => D y x)]
      rw [pair_count D hD xs hndr a hmem]
      rw [List.filter_cons]
      rcases Bool.eq_false_or_eq_true (D a x) with hdx | hdx
      · simp [hdx]
        omega
      · simp [hdx]

theorem dominatesB_irrefl (st : WState) (hotkeys : List String) (a : String) :
    dominatesB st hotkeys a a = false := by
  simp [dominatesB]

/-- C1: the selected winner is, among the identities with at least one
observed (non-skipped) Result in the stream (exactly the keys of `prev`), one
maximizing the number of identities it Pareto-dominates — `dom` counts over
ordered pairs, which on a duplicate-free hotkey list is the number of
identities dominated, dominance being rank-≤ everywhere and rank-< somewhere —
and among dominance ties the winner's miner has the lowest registration
block. -/
theorem get_weights_winner (hotkeys : List String) (results : List Result)
    (st : WState) (w : String)
    (hrun : runResults hotkeys results = .ok st)
    (hw : getWeights hotkeys results = .ok w)
    (hnd : hotkeys.Nodup) :
    (∀ hk, hk ∈ st.prev.map Prod.fst ↔
        ∃ c ∈ results, acceptedB hotkeys c = true ∧ c.miner.hotkey = hk)
    ∧ w ∈ st.prev.map Prod.fst
    ∧ (∀ a ∈ hotkeys, domCount st hotkeys a
          = (hotkeys.filter fun b => dominatesB st hotkeys a b).length
        ∧ dominatesB st hotkeys a a = false)
    ∧ (∀ p ∈ st.prev, domCount st hotkeys p.1 ≤ domCount st hotkeys w)
    ∧ (∃ rbest, (w, rbest) ∈ st.prev ∧ ∀ p ∈ st.prev, ∀ bw bp,
        rbest.miner.block = some bw → p.2.miner.block = some bp →
        domCount st hotkeys p.1 = domCount st hotkeys w → bw ≤ bp) := by
  have hsel : selectBest st hotkeys = .ok w := by
    unfold getWeights at hw
    rw [hrun] at hw
    dsimp only at hw
    by_cases he : hotkeys.isEmpty
    · rw [if_pos he] at hw
      exact Except.noConfusion hw
    · rw [if_neg he] at hw
      exact hw
  have hkeys : ∀ hk, hk ∈ st.prev.map Prod.fst ↔
      ∃ c ∈ results, acceptedB hotkeys c = true ∧ c.miner.hotkey = hk := by
    intro hk
    have := runResults_keys hotkeys results initState st hrun hk
    simpa [initState] using this
  cases hprev : st.prev with
  | nil =>
    rw [selectBest, hprev] at hsel
    exact Except.noConfusion hsel
  | cons x xs =>
    rw [selectBest, hprev] at hsel
    dsimp only at hsel
    by_cases hblocks : ((x :: xs).any fun p => p.2.miner.block.isNone) = true
    · rw [if_pos hblocks] at hsel
      exact Except.noConfusion hsel
    · rw [if_neg hblocks] at hsel
      injection hsel with hwv
      have hmem : chooseBest st hotkeys x xs ∈ x :: xs :=
        foldBest_mem (selKey st hotkeys) xs x
      have hub : ∀ y ∈ x :: xs,
          ¬ lexGtP (selKey st hotkeys y) (selKey st hotkeys (chooseBest st hotkeys x xs)) :=
        fun y hy => foldBest_ub (selKey st hotkeys) xs x y hy
      have hblk : ∀ p ∈ x :: xs, p.2.miner.block.isNone = false := by
        intro p hp
        by_cases hno : p.2.miner.block.isNone = true
        · exact absurd (List.any_eq_true.2 ⟨p, hp, hno⟩) hblocks
        · exact Bool.eq_false_iff.2 hno
      refine ⟨hprev ▸ hkeys, ?_, ?_, ?_, ?_⟩
      · exact List.mem_map.2 ⟨chooseBest st hotkeys x xs, hmem, hwv⟩
      · intro a ha
        exact ⟨pair_count (dominatesB st hotkeys)
            (dominatesB_irrefl st hotkeys) hotkeys hnd a ha,
          dominatesB_irrefl st hotkeys a⟩
      · intro p hp
        have h1 := hub p hp
        rw [← hwv]
        simp only [lexGtP, selKey, not_or, not_and, not_lt] at h1
        omega
      · refine ⟨(chooseBest st hotkeys x xs).2, ?_, ?_⟩
        · rw [← hwv]
          simpa using hmem
        · intro p hp bw bp hbw hbp hdom
          have h1 := hub p hp
          rw [← hwv] at hdom
          simp only [lexGtP, selKey, not_or, not_and, not_lt, hbw, hbp,
            Option.getD_some] at h1
          omega

unseal Rat.add in
theorem get_weights_winner_witness :
    (∀ hk, hk ∈ exSt.prev.map Prod.fst ↔
        ∃ c ∈ exRS, acceptedB exHK c = true ∧ c.miner.hotkey = hk)
    ∧ exW ∈ exSt.prev.map Prod.fst
    ∧ (∀ a ∈ exHK, domCount exSt exHK a
          = (exHK.filter fun b => dominatesB exSt exHK a b).length
        ∧ dominatesB exSt exHK a a = false)
    ∧ (∀ p ∈ exSt.prev, domCount exSt exHK p.1 ≤ domCount exSt exHK exW)
    ∧ (∃ rbest, (exW, rbest) ∈ exSt.prev ∧ ∀ p ∈ exSt.prev, ∀ bw bp,
        rbest.miner.block = some bw → p.2.miner.block = some bp →
        domCount exSt exHK p.1 = domCount exSt exHK exW → bw ≤ bp) :=
  get_weights_winner exHK exRS exSt exW rfl rfl (by decide)
